import Mathlib

/-!
Verification of the workflow-pipeline engine of `claude-flow-dagger`
(`src/factories/workflows.ts`): the data model, the depth-first
topological sort (`WorkflowPipelineImpl.topologicalSort`), phase
execution (`WorkflowPipelineImpl.execute`), static validation
(`WorkflowPipelineImpl.validate`) and monitoring
(`WorkflowPipelineImpl.monitor`).

Modelling conventions:
* The external task executor (`swarm.orchestrateTask`) is an oracle
  parameter `runTask : TaskConfig → CommandResult`, as the spec treats it
  as an out-of-scope collaborator.
* Wall-clock durations (`Date.now()` arithmetic) are outside the
  embedding; every `duration` field is modelled as `0`.
* JavaScript floating-point division is modelled in `ℚ`; a division with
  zero denominator (which yields `NaN` in JavaScript) is modelled as
  `Option.none`.
* The recursive DFS is embedded with explicit fuel; `SortError.fuel` is
  an artifact of the embedding and is proved unreachable for the fuel
  the embedding supplies (`fuelBound`).
* String literals from the source containing the apostrophe character
  are written with the `\x27` escape.
-/

/-- `CommandResult` from `src/dagger/types.ts` (the fields the engine
reads; payload fields are collapsed into an opaque `data`). -/
structure CommandResult where
  success : Bool
  data : Option String := none
  error : Option String := none
  deriving Repr, DecidableEq

/-- `TaskConfigType` from `src/dagger/types.ts` (`TaskConfig` zod
schema): id, description, agent, priority, timeout, retries,
dependencies, metadata. -/
structure TaskConfig where
  id : String
  description : String
  agent : String
  priority : String := "medium"
  timeout : Nat := 300000
  retries : Nat := 2
  dependencies : List String := []
  metadata : List (String × String) := []
  deriving Repr, DecidableEq

/-- `WorkflowPhase` from `src/factories/workflows.ts`. -/
structure WorkflowPhase where
  id : String
  name : String
  dependencies : List String
  tasks : List TaskConfig
  parallel : Bool
  timeout : Option Nat := none
  deriving Repr, DecidableEq

/-- `BatchResult` from `src/dagger/types.ts` (duration modelled as 0). -/
structure BatchResult where
  results : List CommandResult
  success : Bool
  totalTasks : Nat
  successfulTasks : Nat
  failedTasks : Nat
  duration : Nat := 0
  deriving Repr, DecidableEq

/-- `PhaseResult` from `src/factories/workflows.ts`. -/
structure PhaseResult where
  phaseId : String
  success : Bool
  duration : Nat := 0
  tasks : List TaskConfig
  results : BatchResult
  deriving Repr, DecidableEq

/-- `WorkflowMetrics` from `src/factories/workflows.ts`.
`failedTasks` is computed by JavaScript number subtraction, so it is
modelled in `ℤ`; `averageTaskDuration` and `qualityScore` are
divisions that yield `NaN` when `totalTasks = 0`, modelled as `none`. -/
structure WorkflowMetrics where
  totalTasks : Nat
  successfulTasks : Nat
  failedTasks : Int
  averageTaskDuration : Option ℚ
  resourceUtilization : ℚ
  qualityScore : Option ℚ
  deriving Repr, DecidableEq

/-- `WorkflowResult` from `src/factories/workflows.ts` (artifacts are
never produced by the engine itself; the source keeps them `[]`). -/
structure WorkflowResult where
  success : Bool
  duration : Nat := 0
  phases : List PhaseResult
  artifacts : List String := []
  metrics : WorkflowMetrics
  deriving Repr, DecidableEq

/-- Error raised by `topologicalSort`: the source throws
`Circular dependency detected involving phase: <id>`; `fuel` is the
embedding artifact for exhausted recursion fuel (proved unreachable). -/
inductive SortError where
  | cycle (phaseId : String)
  | fuel
  deriving Repr, DecidableEq

/-- The mutable state of the DFS in `topologicalSort`: the `visited`
set and the `result` list (the `visiting` set is restored on return in
the source, so it is threaded as a read-only argument instead). -/
structure SortState where
  visited : List String
  result : List WorkflowPhase
  deriving Repr, DecidableEq

/-- The inner `visit` closure of `topologicalSort`
(`src/factories/workflows.ts:351-369`): throw on a phase already on the
DFS stack, return on an already-visited phase, otherwise look the phase
up by id (silently skipping unknown identifiers), visit its
dependencies depth-first (the `foldlM` is the
`for (const dep of phase.dependencies) visit(dep)` loop, stopping at a
thrown error), then append the phase to `visited`/`result`. -/
def visit (phases : List WorkflowPhase) (fuel : Nat) (visiting : List String)
    (phaseId : String) (st : SortState) : Except SortError SortState :=
  match fuel with
  | 0 => .error .fuel
  | fuel' + 1 =>
    if visiting.contains phaseId then
      .error (.cycle phaseId)
    else if st.visited.contains phaseId then
      .ok st
    else
      match phases.find? (fun p => p.id == phaseId) with
      | none => .ok st
      | some phase =>
        match phase.dependencies.foldlM
            (fun s d => visit phases fuel' (visiting ++ [phaseId]) d s) st with
        | .error e => .error e
        | .ok st' => .ok ⟨st'.visited ++ [phaseId], st'.result ++ [phase]⟩

/-- The dependency loop of `visit`, named for the proofs. -/
def visitList (phases : List WorkflowPhase) (fuel : Nat) (visiting : List String)
    (deps : List String) (st : SortState) : Except SortError SortState :=
  deps.foldlM (fun s d => visit phases fuel visiting d s) st

/-- The outer `for (const phase of phases)` loop of `topologicalSort`
(`src/factories/workflows.ts:371-375`). -/
def sortLoop (phases : List WorkflowPhase) (fuel : Nat) :
    List WorkflowPhase → SortState → Except SortError SortState
  | [], st => .ok st
  | p :: ps, st =>
    if st.visited.contains p.id then
      sortLoop phases fuel ps st
    else
      match visit phases fuel [] p.id st with
      | .error e => .error e
      | .ok st' => sortLoop phases fuel ps st'

/-- Recursion depth of `visit` is bounded by the number of phases plus
a leaf frame for an unknown identifier; this fuel is proved sufficient. -/
def fuelBound (phases : List WorkflowPhase) : Nat :=
  phases.length + 2

/-- `WorkflowPipelineImpl.topologicalSort`
(`src/factories/workflows.ts:346-378`). -/
def topologicalSort (phases : List WorkflowPhase) :
    Except SortError (List WorkflowPhase) :=
  (sortLoop phases (fuelBound phases) phases ⟨[], []⟩).map (·.result)

-- Dependency-graph notions used to state the claims (all read off the
-- same `find?`-based lookup the source performs).

/-- `phaseId` names a phase of the list (the lookup `topologicalSort`
and `validate` perform). -/
def isKnown (phases : List WorkflowPhase) (phaseId : String) : Bool :=
  (phases.find? (fun p => p.id == phaseId)).isSome

/-- Dependency edge of the graph the DFS walks: `a` resolves to a phase
(first match by id) and `b` is among the declared dependencies of that
phase. -/
def edgeb (phases : List WorkflowPhase) (a b : String) : Bool :=
  match phases.find? (fun p => p.id == a) with
  | some p => p.dependencies.contains b
  | none => false

/-- Propositional form of `edgeb`. -/
def Edge (phases : List WorkflowPhase) (a b : String) : Prop :=
  edgeb phases a b = true

instance (phases : List WorkflowPhase) (a b : String) :
    Decidable (Edge phases a b) :=
  inferInstanceAs (Decidable (edgeb phases a b = true))

/-- There is a dependency cycle through `c`: a chain of edges
`c → … → c`. -/
def IsCycleThrough (phases : List WorkflowPhase) (c : String) : Prop :=
  ∃ l : List String, List.Chain' (Edge phases) (c :: l ++ [c])

/-- The dependency graph contains a cycle. -/
def HasCycle (phases : List WorkflowPhase) : Prop :=
  ∃ c, IsCycleThrough phases c

/-- Acyclicity witness: a ranking that strictly decreases along every
dependency edge between identifiers present in the list.  A finite
graph admits such a ranking exactly when it is acyclic. -/
def AcyclicRank (phases : List WorkflowPhase) (rank : String → Nat) : Prop :=
  ∀ p ∈ phases, ∀ d ∈ p.dependencies, isKnown phases d → rank d < rank p.id

instance (phases : List WorkflowPhase) (rank : String → Nat) :
    Decidable (AcyclicRank phases rank) :=
  inferInstanceAs (Decidable (∀ p ∈ phases, ∀ d ∈ p.dependencies,
    isKnown phases d = true → rank d < rank p.id))

instance {ε α : Type} [DecidableEq ε] [DecidableEq α] :
    DecidableEq (Except ε α) := fun a b =>
  match a, b with
  | .error e, .error f =>
    if h : e = f then .isTrue (by rw [h]) else
      .isFalse (by intro hc; cases hc; exact h rfl)
  | .error _, .ok _ => .isFalse (by intro hc; cases hc)
  | .ok _, .error _ => .isFalse (by intro hc; cases hc)
  | .ok x, .ok y =>
    if h : x = y then .isTrue (by rw [h]) else
      .isFalse (by intro hc; cases hc; exact h rfl)

/-- A workflow pipeline (the data the `WorkflowPipelineImpl`
constructor stores; the collaborator modules are passed separately). -/
structure Pipeline where
  id : String
  name : String
  description : String
  phases : List WorkflowPhase
  deriving Repr, DecidableEq

/-- Modelled from the spec: `UtilsModule.batch`, the parallel fan-out
used by `execute()` for `parallel=true` phases, is absent from `src/`
(only its caller `workflows.ts:136` and its `BatchResult` type exist).
Per spec §4.2/§5: dispatch every task, wait for all to finish, success
iff every task succeeded, and count successes/failures over all tasks. -/
def batch (runTask : TaskConfig → CommandResult) (tasks : List TaskConfig) :
    BatchResult :=
  let results := tasks.map runTask
  { results := results
    success := results.all (·.success)
    totalTasks := tasks.length
    successfulTasks := (results.filter (·.success)).length
    failedTasks := (results.filter (fun r => !r.success)).length
    duration := 0 }

/-- The sequential task loop of `execute()`
(`src/factories/workflows.ts:150-157`): dispatch tasks in declared
order, record each result, and break after the first failure. Returns
the dispatched tasks paired with their results. -/
def seqRun (runTask : TaskConfig → CommandResult) :
    List TaskConfig → List (TaskConfig × CommandResult)
  | [] => []
  | t :: ts =>
    let r := runTask t
    if r.success then (t, r) :: seqRun runTask ts else [(t, r)]

/-- One iteration of the phase loop of `execute()`
(`src/factories/workflows.ts:129-173`): build the `PhaseResult` for a
phase, parallel or sequential.  Also returns the list of tasks that
were actually dispatched to the task executor. -/
def runPhase (runTask : TaskConfig → CommandResult) (phase : WorkflowPhase) :
    PhaseResult × List TaskConfig :=
  if phase.parallel then
    let results := batch runTask phase.tasks
    ({ phaseId := phase.id
       success := results.success
       duration := 0
       tasks := phase.tasks
       results := results }, phase.tasks)
  else
    let taskResults := seqRun runTask phase.tasks
    let results := taskResults.map (·.2)
    let phaseSuccess := results.all (·.success)
    ({ phaseId := phase.id
       success := phaseSuccess
       duration := 0
       tasks := phase.tasks
       results :=
        { results := results
          success := phaseSuccess
          totalTasks := results.length
          successfulTasks := (results.filter (·.success)).length
          failedTasks := (results.filter (fun r => !r.success)).length
          duration := 0 } }, taskResults.map (·.1))

/-- The `for (const phase of sortedPhases)` loop of `execute()`
(`src/factories/workflows.ts:120-190`): run phases in resolved order,
collecting `PhaseResult`s, and break as soon as a phase result is
unsuccessful.  Also accumulates the dispatched-task log. -/
def execPhases (runTask : TaskConfig → CommandResult) :
    List WorkflowPhase → List PhaseResult × List TaskConfig
  | [] => ([], [])
  | ph :: rest =>
    let (pr, disp) := runPhase runTask ph
    if pr.success then
      let (prs, disps) := execPhases runTask rest
      (pr :: prs, disp ++ disps)
    else
      ([pr], disp)

/-- The metrics block of `execute()`
(`src/factories/workflows.ts:193-208`).  `failedTasks` is the literal
subtraction `totalTasks - successfulTasks`; `averageTaskDuration` and
`qualityScore` are divisions whose zero-denominator case (JavaScript
`NaN`) is modelled as `none`; `resourceUtilization` is the literal
`0.8`. -/
def mkMetrics (phaseResults : List PhaseResult) : WorkflowMetrics :=
  let totalTasks : Nat := (phaseResults.map (·.tasks.length)).sum
  let successfulTasks : Nat := (phaseResults.map (·.results.successfulTasks)).sum
  { totalTasks := totalTasks
    successfulTasks := successfulTasks
    failedTasks := (totalTasks : Int) - (successfulTasks : Int)
    averageTaskDuration :=
      if totalTasks = 0 then none else some (0 / (totalTasks : ℚ))
    resourceUtilization := 8 / 10
    qualityScore :=
      if totalTasks = 0 then none
      else some ((successfulTasks : ℚ) / (totalTasks : ℚ)) }

/-- `WorkflowPipelineImpl.execute`
(`src/factories/workflows.ts:104-236`): resolve the phase order (an
error thrown there is re-raised after a failure checkpoint, with no
task dispatched), run phases in order with short-circuit on failure,
and aggregate the result.  Checkpoint writes to the external state
store carry no information the result depends on and are elided; the
second component is the log of tasks dispatched to the task executor. -/
def execute (runTask : TaskConfig → CommandResult) (pipeline : Pipeline) :
    Except SortError WorkflowResult × List TaskConfig :=
  match topologicalSort pipeline.phases with
  | .error e => (.error e, [])
  | .ok sortedPhases =>
    let (phaseResults, dispatched) := execPhases runTask sortedPhases
    (.ok
      { success := phaseResults.all (·.success)
        duration := 0
        phases := phaseResults
        artifacts := []
        metrics := mkMetrics phaseResults }, dispatched)

/-- `ValidationResult` from `src/factories/workflows.ts`. -/
structure ValidationResult where
  isValid : Bool
  errors : List String
  warnings : List String
  suggestions : List String
  deriving Repr, DecidableEq

/-- `WorkflowPipelineImpl.hasCircularDependencies`
(`src/factories/workflows.ts:380-387`): run the sort and report whether
it threw. -/
def hasCircularDependencies (phases : List WorkflowPhase) : Bool :=
  match topologicalSort phases with
  | .error _ => true
  | .ok _ => false

/-- The unknown-dependency validation message
(`src/factories/workflows.ts:248`); apostrophes written as `\x27`. -/
def unknownDepMsg (phaseId dep : String) : String :=
  "Phase \x27" ++ phaseId ++ "\x27 depends on non-existent phase \x27" ++
    dep ++ "\x27"

/-- The cycle validation message (`src/factories/workflows.ts:255`). -/
def circularDepsMsg : String :=
  "Workflow contains circular dependencies"

/-- The invalid-task validation message
(`src/factories/workflows.ts:262`). -/
def invalidTaskMsg (phaseId : String) : String :=
  "Phase \x27" ++ phaseId ++ "\x27 contains invalid task: missing id or description"

/-- The missing-agent validation message
(`src/factories/workflows.ts:266`). -/
def noAgentMsg (taskId phaseId : String) : String :=
  "Task \x27" ++ taskId ++ "\x27 in phase \x27" ++ phaseId ++
    "\x27 has no assigned agent"

/-- The cycle error message thrown by `topologicalSort`
(`src/factories/workflows.ts:353`). -/
def cycleThrowMsg (phaseId : String) : String :=
  "Circular dependency detected involving phase: " ++ phaseId

/-- `WorkflowPipelineImpl.validate`
(`src/factories/workflows.ts:238-293`): unknown-dependency errors, a
cycle error, per-task field errors (a JavaScript falsy check on string
fields is emptiness), a large-parallel-phase warning, and two
suggestions; `isValid` iff no errors. -/
def validate (pipeline : Pipeline) : ValidationResult :=
  let phases := pipeline.phases
  let phaseIds := phases.map (·.id)
  let depErrors :=
    (phases.map (fun p =>
      (p.dependencies.filter (fun d => !phaseIds.contains d)).map
        (fun d => unknownDepMsg p.id d))).flatten
  let cycleErrors :=
    if hasCircularDependencies phases then [circularDepsMsg] else []
  let taskErrors :=
    (phases.map (fun p =>
      (p.tasks.map (fun t =>
        (if t.id = "" || t.description = "" then [invalidTaskMsg p.id] else []) ++
        (if t.agent = "" then [noAgentMsg t.id p.id] else []))).flatten)).flatten
  let errors := depErrors ++ cycleErrors ++ taskErrors
  let warnings :=
    (phases.filter (fun p => p.parallel && decide (10 < p.tasks.length))).map
      (fun p =>
        "Phase \x27" ++ p.id ++ "\x27 has " ++ toString p.tasks.length ++
          " parallel tasks - consider breaking it down")
  let suggestions :=
    (if 20 < phases.length then
      ["Consider breaking down this workflow into smaller, composable workflows"]
     else []) ++
    (let isolated := phases.filter (fun p =>
        p.dependencies.isEmpty &&
          !(phases.any (fun other => other.dependencies.contains p.id)))
     if 1 < isolated.length then
      ["Consider running isolated phases in parallel for better performance"]
     else [])
  { isValid := errors.isEmpty
    errors := errors
    warnings := warnings
    suggestions := suggestions }

/-- The `context` record the engine stores in checkpoints, as read back
by `monitor()` (`status`, `startTime`, `completedAt`). -/
structure StateCtx where
  status : Option String := none
  startTime : Option Int := none
  completedAt : Option Int := none
  deriving Repr, DecidableEq

/-- A checkpoint value (`monitor()` reads `state.value.context`). -/
structure StateValue where
  context : Option StateCtx := none
  deriving Repr, DecidableEq

/-- One entry of the state-store listing `monitor()` iterates
(`state.key`, `state.value`). -/
structure StateEntry where
  key : String
  value : Option StateValue := none
  deriving Repr, DecidableEq

/-- Modelled from the spec: the result shape `monitor()` expects from
`MemoryModule.retrieveWorkflowState` — a `{success, data}` command
result — whose implementation is absent from `src/` (the engine only
reads `workflowState.success` and `workflowState.data`,
`src/factories/workflows.ts:296-298`).  Per spec §4.3/§7 the state-store
read is best-effort and reports failure through an unsuccessful result
instead of throwing. -/
structure RetrieveResult where
  success : Bool
  data : Option (List StateEntry)
  deriving Repr, DecidableEq

/-- `Partial<WorkflowMetrics>` as `monitor()` populates it. -/
structure PartialMetrics where
  totalTasks : Option Nat := none
  successfulTasks : Option Nat := none
  deriving Repr, DecidableEq

/-- `MonitoringResult` from `src/factories/workflows.ts`; `progress` is
a JavaScript float division, `none` for the `NaN` case. -/
structure MonitoringResult where
  status : String
  progress : Option ℚ
  currentPhase : String
  eta : ℚ
  metrics : PartialMetrics
  deriving Repr, DecidableEq

/-- The truthy `state.value && state.value.context?.status === s` test
used by `monitor()` (`src/factories/workflows.ts:310-319`). -/
def hasCtxStatus (s : String) (e : StateEntry) : Bool :=
  match e.value with
  | some v =>
    match v.context with
    | some c => c.status == some s
    | none => false
  | none => false

/-- The degraded result `monitor()` returns when the state read is
unsuccessful or carries no data (`src/factories/workflows.ts:298-306`). -/
def degradedMonitoringResult : MonitoringResult :=
  { status := "failed"
    progress := some 0
    currentPhase := "unknown"
    eta := 0
    metrics := {} }

/-- `WorkflowPipelineImpl.monitor`
(`src/factories/workflows.ts:295-344`), parameterized by the outcome of
the state-store read.  The `ctx?.completedAt && ctx?.startTime` guard
is a JavaScript truthiness test, so a present-but-zero timestamp counts
as absent. -/
def monitor (pipeline : Pipeline) (workflowState : RetrieveResult) :
    MonitoringResult :=
  match workflowState.success, workflowState.data with
  | true, some states =>
    let completedPhases := (states.filter (hasCtxStatus "completed")).length
    let totalPhases := pipeline.phases.length
    let progress : Option ℚ :=
      if totalPhases = 0 then none
      else some ((completedPhases : ℚ) / (totalPhases : ℚ) * 100)
    let runningPhase := states.find? (hasCtxStatus "running")
    let currentPhase :=
      match runningPhase with
      | some st =>
        let lastSeg := (st.key.splitOn ":").getLastD ""
        if lastSeg = "" then "unknown" else lastSeg
      | none => "completed"
    let durTotal : Int := states.foldl (fun sum st =>
      match st.value with
      | some v =>
        match v.context with
        | some c =>
          match c.completedAt, c.startTime with
          | some ce, some s0 =>
            if ce ≠ 0 && s0 ≠ 0 then sum + (ce - s0) else sum
          | _, _ => sum
        | none => sum
      | none => sum) 0
    let avgPhaseTime : ℚ := (durTotal : ℚ) / (max completedPhases 1 : ℚ)
    let eta : ℚ := ((totalPhases : ℚ) - (completedPhases : ℚ)) * avgPhaseTime
    { status :=
        if progress = some 100 then "completed"
        else if runningPhase.isSome then "running" else "failed"
      progress := progress
      currentPhase := currentPhase
      eta := eta
      metrics :=
        { totalTasks := some ((pipeline.phases.map (·.tasks.length)).sum)
          successfulTasks := some (completedPhases * 2) } }
  | _, _ => degradedMonitoringResult

-- ### Helper lemmas about the id lookup and the edge relation

theorem find?_id_eq {phases : List WorkflowPhase} {pid : String} {p : WorkflowPhase}
    (h : phases.find? (fun q => q.id == pid) = some p) : p.id = pid := by
  have hp := List.find?_some h
  exact eq_of_beq hp

theorem find?_id_mem {phases : List WorkflowPhase} {pid : String} {p : WorkflowPhase}
    (h : phases.find? (fun q => q.id == pid) = some p) : p ∈ phases :=
  List.mem_of_find?_eq_some h

theorem isKnown_of_find? {phases : List WorkflowPhase} {pid : String} {p : WorkflowPhase}
    (h : phases.find? (fun q => q.id == pid) = some p) : isKnown phases pid = true := by
  simp [isKnown, h]

theorem edge_elim {phases : List WorkflowPhase} {a b : String} (h : Edge phases a b) :
    ∃ p, phases.find? (fun q => q.id == a) = some p ∧ b ∈ p.dependencies := by
  unfold Edge edgeb at h
  cases hf : phases.find? (fun q => q.id == a) with
  | none => rw [hf] at h; exact absurd h (by simp)
  | some p =>
    rw [hf] at h
    exact ⟨p, rfl, by simpa using h⟩

theorem edge_src_known {phases : List WorkflowPhase} {a b : String} (h : Edge phases a b) :
    isKnown phases a = true := by
  obtain ⟨p, hf, _⟩ := edge_elim h
  exact isKnown_of_find? hf

/-- The edge form of the acyclicity witness, derived from `AcyclicRank`. -/
theorem edge_rank_lt {phases : List WorkflowPhase} {rank : String → Nat}
    (hacy : AcyclicRank phases rank) {a b : String}
    (h : Edge phases a b) (hb : isKnown phases b = true) : rank b < rank a := by
  obtain ⟨p, hf, hdep⟩ := edge_elim h
  have := hacy p (find?_id_mem hf) b hdep hb
  rwa [find?_id_eq hf] at this

theorem chain'_head_edge {phases : List WorkflowPhase} {a b : String} {l : List String}
    (h : List.Chain' (Edge phases) (a :: l ++ [b])) : ∃ y, Edge phases a y := by
  cases l with
  | nil => exact ⟨b, (List.chain'_cons.mp h).1⟩
  | cons y l' => exact ⟨y, (List.chain'_cons.mp h).1⟩

/-- A ranking that strictly decreases along known-target edges strictly
decreases along any edge chain ending in a known identifier. -/
theorem chain'_rank_lt {phases : List WorkflowPhase} {rank : String → Nat}
    (hrk : ∀ a b, Edge phases a b → isKnown phases b = true → rank b < rank a) :
    ∀ (l : List String) (a b : String),
      List.Chain' (Edge phases) (a :: l ++ [b]) → isKnown phases b = true →
        rank b < rank a := by
  intro l
  induction l with
  | nil =>
    intro a b h hb
    exact hrk a b (List.chain'_cons.mp h).1 hb
  | cons x l' ih =>
    intro a b h hb
    have h1 : Edge phases a x := (List.chain'_cons.mp h).1
    have h2 : List.Chain' (Edge phases) (x :: l' ++ [b]) := (List.chain'_cons.mp h).2
    have hx : isKnown phases x = true := by
      obtain ⟨y, hy⟩ := chain'_head_edge h2
      exact edge_src_known hy
    exact lt_trans (ih x b h2 hb) (hrk a x h1 hx)

/-- No identifier can lie on a cycle when an edge-decreasing ranking
exists. -/
theorem no_cycle_of_rank {phases : List WorkflowPhase} {rank : String → Nat}
    (hrk : ∀ a b, Edge phases a b → isKnown phases b = true → rank b < rank a)
    {c : String} (h : IsCycleThrough phases c) : False := by
  obtain ⟨l, hl⟩ := h
  have hc : isKnown phases c = true := by
    obtain ⟨y, hy⟩ := chain'_head_edge hl
    exact edge_src_known hy
  exact lt_irrefl _ (chain'_rank_lt hrk l c c hl hc)

-- ### Unfolding lemmas for the DFS

theorem visitList_nil {phases : List WorkflowPhase} {fuel : Nat}
    {visiting : List String} {st : SortState} :
    visitList phases fuel visiting [] st = .ok st := rfl

theorem visitList_cons {phases : List WorkflowPhase} {fuel : Nat}
    {visiting : List String} {d : String} {ds : List String} {st : SortState} :
    visitList phases fuel visiting (d :: ds) st =
      match visit phases fuel visiting d st with
      | .error e => .error e
      | .ok st' => visitList phases fuel visiting ds st' := by
  unfold visitList
  rw [List.foldlM_cons]
  cases visit phases fuel visiting d st <;> rfl

theorem visit_succ {phases : List WorkflowPhase} {fuel : Nat}
    {visiting : List String} {phaseId : String} {st : SortState} :
    visit phases (fuel + 1) visiting phaseId st =
      (if visiting.contains phaseId then
        .error (.cycle phaseId)
      else if st.visited.contains phaseId then
        .ok st
      else
        match phases.find? (fun p => p.id == phaseId) with
        | none => .ok st
        | some phase =>
          match visitList phases fuel (visiting ++ [phaseId]) phase.dependencies st with
          | .error e => .error e
          | .ok st' => .ok ⟨st'.visited ++ [phaseId], st'.result ++ [phase]⟩) := rfl

-- ### Topological validity of an order

/-- `order` is topologically valid for `phases`: every dependency of
every listed phase that names a phase of `phases` occurs at a strictly
earlier position. -/
def TopoValid (phases order : List WorkflowPhase) : Prop :=
  ∀ j : Fin order.length, ∀ d ∈ (order.get j).dependencies,
    isKnown phases d = true →
      ∃ i : Fin order.length, i.val < j.val ∧ (order.get i).id = d

theorem topoValid_nil {phases : List WorkflowPhase} : TopoValid phases [] := by
  intro j
  exact absurd j.isLt (by simp)

theorem topoValid_append {phases order : List WorkflowPhase} {phase : WorkflowPhase}
    (h : TopoValid phases order)
    (hdeps : ∀ d ∈ phase.dependencies, isKnown phases d = true →
      d ∈ order.map (·.id)) :
    TopoValid phases (order ++ [phase]) := by
  intro j d hd hk
  rcases Nat.lt_or_ge j.val order.length with hj | hj
  · have hget : (order ++ [phase]).get j = order.get ⟨j.val, hj⟩ := by
      simp [List.get_eq_getElem, List.getElem_append_left hj]
    rw [hget] at hd
    obtain ⟨i, hij, hid⟩ := h ⟨j.val, hj⟩ d hd hk
    have hi := i.isLt
    refine ⟨⟨i.val, by simp only [List.length_append, List.length_singleton]; omega⟩, hij, ?_⟩
    simp only [List.get_eq_getElem, List.getElem_append_left hi]
    simpa [List.get_eq_getElem] using hid
  · have hj' : j.val = order.length := by
      have := j.isLt
      simp at this
      omega
    have hget : (order ++ [phase]).get j = phase := by
      simp [List.get_eq_getElem, List.getElem_append_right hj, hj']
    rw [hget] at hd
    have hmem := hdeps d hd hk
    obtain ⟨p, hp, hpid⟩ := List.mem_map.mp hmem
    obtain ⟨i, hi⟩ := List.mem_iff_get.mp hp
    have hilt := i.isLt
    refine ⟨⟨i.val, by simp only [List.length_append, List.length_singleton]; omega⟩,
      by show i.val < j.val; omega, ?_⟩
    simp only [List.get_eq_getElem, List.getElem_append_left hilt]
    rw [← hpid, ← hi]
    simp [List.get_eq_getElem]

-- ### The DFS state invariant

/-- Invariant preserved by `visit`: `visited` mirrors the ids of
`result` in order, ids are never pushed twice, every pushed phase is
exactly what the id lookup returns for its id, and `result` is
topologically valid so far. -/
def SortInv (phases : List WorkflowPhase) (st : SortState) : Prop :=
  st.visited = st.result.map (·.id) ∧
  st.visited.Nodup ∧
  (∀ p ∈ st.result, phases.find? (fun q => q.id == p.id) = some p) ∧
  TopoValid phases st.result

theorem sortInv_init {phases : List WorkflowPhase} : SortInv phases ⟨[], []⟩ := by
  refine ⟨rfl, List.nodup_nil, by simp, topoValid_nil⟩

/-- `visited` grows monotonically along a `result` extension. -/
theorem visited_mono {phases : List WorkflowPhase} {st st' : SortState}
    (h1 : SortInv phases st) (h2 : SortInv phases st')
    (hpre : ∃ tl, st'.result = st.result ++ tl) :
    ∀ x ∈ st.visited, x ∈ st'.visited := by
  intro x hx
  obtain ⟨tl, htl⟩ := hpre
  rw [h2.1, htl, List.map_append, List.mem_append]
  exact Or.inl (h1.1 ▸ hx)

-- ### Fuel sufficiency: the embedding fuel is never exhausted

theorem contains_true_iff {l : List String} {x : String} :
    l.contains x = true ↔ x ∈ l := List.elem_iff

/-- The distinct identifiers the DFS can push on the stack. -/
def knownIds (phases : List WorkflowPhase) : List String :=
  (phases.map (·.id)).dedup

/-- Number of known identifiers not yet on the DFS stack: the bound on
remaining recursion depth. -/
def freeCount (phases : List WorkflowPhase) (visiting : List String) : Nat :=
  ((knownIds phases).filter (fun x => !visiting.contains x)).length

theorem mem_knownIds_of_find? {phases : List WorkflowPhase} {pid : String}
    {p : WorkflowPhase} (h : phases.find? (fun q => q.id == pid) = some p) :
    pid ∈ knownIds phases := by
  rw [knownIds, List.mem_dedup, List.mem_map]
  exact ⟨p, find?_id_mem h, find?_id_eq h⟩

theorem freeCount_le {phases : List WorkflowPhase} {visiting : List String} :
    freeCount phases visiting ≤ phases.length := by
  calc freeCount phases visiting ≤ (knownIds phases).length :=
        List.length_filter_le _ _
    _ ≤ (phases.map (·.id)).length := (List.dedup_sublist _).length_le
    _ = phases.length := List.length_map _ _

theorem contains_false_iff {l : List String} {x : String} :
    l.contains x = false ↔ x ∉ l := by
  constructor
  · intro h hc
    rw [contains_true_iff.mpr hc] at h
    cases h
  · intro h
    cases hc : l.contains x with
    | false => rfl
    | true => exact absurd (contains_true_iff.mp hc) h

theorem freeCount_push_lt {phases : List WorkflowPhase} {visiting : List String}
    {pid : String} (hk : pid ∈ knownIds phases)
    (hnv : pid ∉ visiting) :
    freeCount phases (visiting ++ [pid]) < freeCount phases visiting := by
  unfold freeCount
  have hsub : ((knownIds phases).filter (fun x => !(visiting ++ [pid]).contains x)) =
      ((knownIds phases).filter (fun x => !visiting.contains x)).filter
        (fun x => !(x == pid)) := by
    rw [List.filter_filter]
    apply List.filter_congr
    intro x _
    show (!(visiting ++ [pid]).contains x) = (!(x == pid) && !visiting.contains x)
    by_cases hv : x ∈ visiting
    · have c1 : (visiting ++ [pid]).contains x = true :=
        contains_true_iff.mpr (by simp [hv])
      have c2 : visiting.contains x = true := contains_true_iff.mpr hv
      rw [c1, c2]
      simp
    · by_cases hp : x = pid
      · have c1 : (visiting ++ [pid]).contains x = true :=
          contains_true_iff.mpr (by simp [hp])
        have c3 : (x == pid) = true := by simp [hp]
        rw [c1, c3]
        simp
      · have c1 : (visiting ++ [pid]).contains x = false :=
          contains_false_iff.mpr (by simp [hv, hp])
        have c2 : visiting.contains x = false := contains_false_iff.mpr hv
        have c3 : (x == pid) = false := by
          cases hb : (x == pid) with
          | false => rfl
          | true => exact absurd (eq_of_beq hb) hp
        rw [c1, c2, c3]
        simp
  rw [hsub]
  apply List.length_filter_lt_length_iff_exists.mpr
  refine ⟨pid, ?_, by simp⟩
  rw [List.mem_filter]
  refine ⟨hk, ?_⟩
  rw [contains_false_iff.mpr hnv]
  rfl

theorem visitList_ne_fuel {phases : List WorkflowPhase} {fuel : Nat}
    (hv : ∀ visiting pid st, freeCount phases visiting + 2 ≤ fuel →
      visit phases fuel visiting pid st ≠ .error .fuel) :
    ∀ (ds : List String) (visiting : List String) (st : SortState),
      freeCount phases visiting + 2 ≤ fuel →
        visitList phases fuel visiting ds st ≠ .error .fuel := by
  intro ds
  induction ds with
  | nil => intro visiting st _ h; rw [visitList_nil] at h; cases h
  | cons d ds ih =>
    intro visiting st hb h
    rw [visitList_cons] at h
    cases hvis : visit phases fuel visiting d st with
    | error e =>
      rw [hvis] at h
      simp at h
      exact hv visiting d st hb (h ▸ hvis)
    | ok st' =>
      rw [hvis] at h
      exact ih visiting st' hb h

theorem visit_ne_fuel {phases : List WorkflowPhase} :
    ∀ (fuel : Nat) (visiting : List String) (pid : String) (st : SortState),
      freeCount phases visiting + 2 ≤ fuel →
        visit phases fuel visiting pid st ≠ .error .fuel := by
  intro fuel
  induction fuel with
  | zero => intro visiting pid st hb; omega
  | succ fuel ih =>
    intro visiting pid st hb h
    rw [visit_succ] at h
    split at h
    · simp at h
    · split at h
      · exact Except.noConfusion h
      · rename_i h1 h2
        split at h
        · exact Except.noConfusion h
        · rename_i phase hf
          split at h
          · rename_i e hvl
            have he : e = SortError.fuel := by
              injection h
            have hnv : pid ∉ visiting := by
              intro hc
              exact h1 (contains_true_iff.mpr hc)
            have hlt := freeCount_push_lt (mem_knownIds_of_find? hf) hnv
            have hb' : freeCount phases (visiting ++ [pid]) + 2 ≤ fuel := by omega
            exact visitList_ne_fuel ih phase.dependencies (visiting ++ [pid]) st hb'
              (he ▸ hvl)
          · exact Except.noConfusion h

theorem sortLoop_ne_fuel {phases : List WorkflowPhase} :
    ∀ (ps : List WorkflowPhase) (st : SortState),
      sortLoop phases (fuelBound phases) ps st ≠ .error .fuel := by
  intro ps
  induction ps with
  | nil => intro st h; cases h
  | cons p ps ih =>
    intro st h
    rw [sortLoop] at h
    have hb : freeCount phases [] + 2 ≤ fuelBound phases := by
      have : freeCount phases [] ≤ phases.length := freeCount_le
      unfold fuelBound
      omega
    split at h
    · exact ih st h
    · split at h
      · rename_i e hv
        have he : e = SortError.fuel := by injection h
        exact visit_ne_fuel (fuelBound phases) [] p.id st hb (he ▸ hv)
      · exact ih _ h

/-- The fuel the embedding supplies is never exhausted: the embedding
artifact `SortError.fuel` is unreachable from `topologicalSort`. -/
theorem topologicalSort_ne_fuel {phases : List WorkflowPhase} :
    topologicalSort phases ≠ .error .fuel := by
  intro h
  unfold topologicalSort at h
  cases hs : sortLoop phases (fuelBound phases) phases ⟨[], []⟩ with
  | error e =>
    rw [hs] at h
    simp [Except.map] at h
    exact sortLoop_ne_fuel phases ⟨[], []⟩ (h ▸ hs)
  | ok st => rw [hs] at h; simp [Except.map] at h

-- ### Soundness of the cycle error: the reported id lies on a cycle

theorem visitList_cycle_sound {phases : List WorkflowPhase} {fuel : Nat}
    (hv : ∀ (visiting : List String) (pid : String) (st : SortState) (c : String),
      List.Chain' (Edge phases) (visiting ++ [pid]) →
      visit phases fuel visiting pid st = .error (.cycle c) →
      IsCycleThrough phases c) :
    ∀ (ds : List String) (v : List String) (pid : String) (st : SortState)
      (c : String),
      List.Chain' (Edge phases) (v ++ [pid]) →
      (∀ d ∈ ds, Edge phases pid d) →
      visitList phases fuel (v ++ [pid]) ds st = .error (.cycle c) →
      IsCycleThrough phases c := by
  intro ds
  induction ds with
  | nil => intro v pid st c _ _ h; rw [visitList_nil] at h; cases h
  | cons d ds ih =>
    intro v pid st c hch hd h
    rw [visitList_cons] at h
    have hch' : List.Chain' (Edge phases) ((v ++ [pid]) ++ [d]) := by
      rw [List.chain'_append]
      refine ⟨hch, List.chain'_singleton d, ?_⟩
      intro x hx y hy
      rw [List.getLast?_concat] at hx
      simp at hx hy
      subst hx
      subst hy
      exact hd d (by simp)
    cases hvis : visit phases fuel (v ++ [pid]) d st with
    | error e =>
      rw [hvis] at h
      cases h
      exact hv (v ++ [pid]) d st c hch' hvis
    | ok st' =>
      rw [hvis] at h
      exact ih v pid st' c hch (fun x hx => hd x (by simp [hx])) h

theorem visit_cycle_sound {phases : List WorkflowPhase} :
    ∀ (fuel : Nat) (visiting : List String) (pid : String) (st : SortState)
      (c : String),
      List.Chain' (Edge phases) (visiting ++ [pid]) →
      visit phases fuel visiting pid st = .error (.cycle c) →
      IsCycleThrough phases c := by
  intro fuel
  induction fuel with
  | zero => intro visiting pid st c _ h; cases h
  | succ fuel ih =>
    intro visiting pid st c hch h
    rw [visit_succ] at h
    split at h
    · rename_i h1
      have hc : c = pid := by
        injection h with h'
        injection h' with h''
        exact h''.symm
      subst hc
      have hmem : c ∈ visiting := contains_true_iff.mp h1
      obtain ⟨s, t, hst⟩ := List.append_of_mem hmem
      subst hst
      have hch' : List.Chain' (Edge phases) (s ++ (c :: (t ++ [c]))) := by
        have : (s ++ c :: t) ++ [c] = s ++ (c :: (t ++ [c])) := by simp
        rwa [this] at hch
      exact ⟨t, (List.chain'_append.mp hch').2.1⟩
    · split at h
      · exact Except.noConfusion h
      · split at h
        · exact Except.noConfusion h
        · rename_i phase hf
          split at h
          · rename_i e hvl
            have he : e = SortError.cycle c := by injection h
            subst he
            refine visitList_cycle_sound ih phase.dependencies visiting pid st c hch
              ?_ hvl
            intro d hd
            show edgeb phases pid d = true
            unfold edgeb
            rw [hf]
            exact contains_true_iff.mpr hd
          · exact Except.noConfusion h

theorem sortLoop_cycle_sound {phases : List WorkflowPhase} :
    ∀ (ps : List WorkflowPhase) (st : SortState) (c : String),
      sortLoop phases (fuelBound phases) ps st = .error (.cycle c) →
      IsCycleThrough phases c := by
  intro ps
  induction ps with
  | nil => intro st c h; cases h
  | cons p ps ih =>
    intro st c h
    rw [sortLoop] at h
    split at h
    · exact ih st c h
    · split at h
      · rename_i e hv
        have he : e = SortError.cycle c := by injection h
        subst he
        exact visit_cycle_sound (fuelBound phases) [] p.id st c (by simp) hv
      · exact ih _ c h

/-- A cycle error reported by `topologicalSort` names an identifier on
an actual dependency cycle. -/
theorem topologicalSort_cycle_sound {phases : List WorkflowPhase} {c : String}
    (h : topologicalSort phases = .error (.cycle c)) :
    IsCycleThrough phases c := by
  unfold topologicalSort at h
  cases hs : sortLoop phases (fuelBound phases) phases ⟨[], []⟩ with
  | error e =>
    rw [hs] at h
    simp [Except.map] at h
    exact sortLoop_cycle_sound phases ⟨[], []⟩ c (h ▸ hs)
  | ok st => rw [hs] at h; simp [Except.map] at h

-- ### The invariant holds along every successful DFS run

theorem visitList_ok {phases : List WorkflowPhase} {fuel : Nat}
    (hv : ∀ (visiting : List String) (pid : String) (st st' : SortState),
      SortInv phases st → visit phases fuel visiting pid st = .ok st' →
      SortInv phases st' ∧ (∃ tl, st'.result = st.result ++ tl) ∧
      (∀ x ∈ st'.visited, x ∈ st.visited ∨ x ∉ visiting) ∧
      (isKnown phases pid = true → pid ∈ st'.visited)) :
    ∀ (ds : List String) (visiting : List String) (st st' : SortState),
      SortInv phases st → visitList phases fuel visiting ds st = .ok st' →
      SortInv phases st' ∧ (∃ tl, st'.result = st.result ++ tl) ∧
      (∀ x ∈ st'.visited, x ∈ st.visited ∨ x ∉ visiting) ∧
      (∀ d ∈ ds, isKnown phases d = true → d ∈ st'.visited) := by
  intro ds
  induction ds with
  | nil =>
    intro visiting st st' hinv h
    rw [visitList_nil] at h
    cases h
    exact ⟨hinv, ⟨[], by simp⟩, fun x hx => Or.inl hx, by simp⟩
  | cons d ds ih =>
    intro visiting st st' hinv h
    rw [visitList_cons] at h
    cases hvis : visit phases fuel visiting d st with
    | error e => rw [hvis] at h; exact Except.noConfusion h
    | ok st1 =>
      rw [hvis] at h
      obtain ⟨hinv1, hpre1, hdis1, hkd1⟩ := hv visiting d st st1 hinv hvis
      obtain ⟨hinv2, hpre2, hdis2, hkds⟩ := ih visiting st1 st' hinv1 h
      refine ⟨hinv2, ?_, ?_, ?_⟩
      · obtain ⟨t1, ht1⟩ := hpre1
        obtain ⟨t2, ht2⟩ := hpre2
        exact ⟨t1 ++ t2, by rw [ht2, ht1, List.append_assoc]⟩
      · intro x hx
        rcases hdis2 x hx with hx1 | hx1
        · exact hdis1 x hx1
        · exact Or.inr hx1
      · intro e he hk
        rcases List.mem_cons.mp he with he1 | he1
        · subst he1
          exact visited_mono hinv1 hinv2 hpre2 e (hkd1 hk)
        · exact hkds e he1 hk

theorem visit_ok {phases : List WorkflowPhase} :
    ∀ (fuel : Nat) (visiting : List String) (pid : String) (st st' : SortState),
      SortInv phases st → visit phases fuel visiting pid st = .ok st' →
      SortInv phases st' ∧ (∃ tl, st'.result = st.result ++ tl) ∧
      (∀ x ∈ st'.visited, x ∈ st.visited ∨ x ∉ visiting) ∧
      (isKnown phases pid = true → pid ∈ st'.visited) := by
  intro fuel
  induction fuel with
  | zero => intro visiting pid st st' _ h; exact Except.noConfusion h
  | succ fuel ih =>
    intro visiting pid st st' hinv h
    rw [visit_succ] at h
    split at h
    · exact Except.noConfusion h
    · split at h
      · rename_i h1 h2
        cases h
        exact ⟨hinv, ⟨[], by simp⟩, fun x hx => Or.inl hx,
          fun _ => contains_true_iff.mp h2⟩
      · rename_i h1 h2
        split at h
        · rename_i hf
          cases h
          refine ⟨hinv, ⟨[], by simp⟩, fun x hx => Or.inl hx, fun hk => ?_⟩
          rw [isKnown, hf] at hk
          cases hk
        · rename_i phase hf
          split at h
          · exact Except.noConfusion h
          · rename_i st1 hvl
            cases h
            obtain ⟨hinv1, ⟨tl, htl⟩, hdis1, hkds⟩ :=
              visitList_ok ih phase.dependencies (visiting ++ [pid]) st st1 hinv hvl
            have hpid : phase.id = pid := find?_id_eq hf
            have hnv : pid ∉ visiting := fun hc => h1 (contains_true_iff.mpr hc)
            have hnst : pid ∉ st.visited := fun hc => h2 (contains_true_iff.mpr hc)
            have hnst1 : pid ∉ st1.visited := by
              intro hc
              rcases hdis1 pid hc with hc1 | hc1
              · exact hnst hc1
              · exact hc1 (List.mem_append.mpr (Or.inr (by simp)))
            refine ⟨⟨?_, ?_, ?_, ?_⟩, ⟨tl ++ [phase], by simp [htl]⟩, ?_, ?_⟩
            · show st1.visited ++ [pid] = (st1.result ++ [phase]).map (·.id)
              rw [List.map_append, ← hinv1.1]
              simp [hpid]
            · show (st1.visited ++ [pid]).Nodup
              rw [List.nodup_append]
              refine ⟨hinv1.2.1, by simp, ?_⟩
              intro a ha hb
              simp at hb
              exact hnst1 (hb ▸ ha)
            · show ∀ p ∈ st1.result ++ [phase],
                phases.find? (fun q => q.id == p.id) = some p
              intro p hp
              rcases List.mem_append.mp hp with hp1 | hp1
              · exact hinv1.2.2.1 p hp1
              · have : p = phase := by simpa using hp1
                subst this
                rw [hpid]
                exact hf
            · show TopoValid phases (st1.result ++ [phase])
              refine topoValid_append hinv1.2.2.2 ?_
              intro d hd hk
              rw [← hinv1.1]
              exact hkds d hd hk
            · intro x hx
              rcases List.mem_append.mp hx with hx1 | hx1
              · rcases hdis1 x hx1 with hc | hc
                · exact Or.inl hc
                · exact Or.inr (fun hm => hc (List.mem_append.mpr (Or.inl hm)))
              · have : x = pid := by simpa using hx1
                subst this
                exact Or.inr hnv
            · intro _
              exact List.mem_append.mpr (Or.inr (by simp))

theorem sortLoop_ok {phases : List WorkflowPhase} {fuel : Nat} :
    ∀ (ps : List WorkflowPhase) (st st' : SortState),
      SortInv phases st → sortLoop phases fuel ps st = .ok st' →
      SortInv phases st' ∧ (∃ tl, st'.result = st.result ++ tl) ∧
      (∀ p ∈ ps, isKnown phases p.id = true → p.id ∈ st'.visited) := by
  intro ps
  induction ps with
  | nil =>
    intro st st' hinv h
    cases h
    exact ⟨hinv, ⟨[], by simp⟩, by simp⟩
  | cons p ps ih =>
    intro st st' hinv h
    rw [sortLoop] at h
    split at h
    · rename_i hc
      obtain ⟨hinv2, hpre2, hk2⟩ := ih st st' hinv h
      refine ⟨hinv2, hpre2, ?_⟩
      intro q hq hkq
      rcases List.mem_cons.mp hq with hq1 | hq1
      · subst hq1
        exact visited_mono hinv hinv2 hpre2 q.id (contains_true_iff.mp hc)
      · exact hk2 q hq1 hkq
    · split at h
      · exact Except.noConfusion h
      · rename_i st1 hv
        obtain ⟨hinv1, hpre1, hdis1, hkd1⟩ :=
          visit_ok fuel [] p.id st st1 hinv hv
        obtain ⟨hinv2, hpre2, hk2⟩ := ih st1 st' hinv1 h
        refine ⟨hinv2, ?_, ?_⟩
        · obtain ⟨t1, ht1⟩ := hpre1
          obtain ⟨t2, ht2⟩ := hpre2
          exact ⟨t1 ++ t2, by rw [ht2, ht1, List.append_assoc]⟩
        · intro q hq hkq
          rcases List.mem_cons.mp hq with hq1 | hq1
          · subst hq1
            exact visited_mono hinv1 hinv2 hpre2 q.id (hkd1 hkq)
          · exact hk2 q hq1 hkq

/-- Every property the claims need about a successful
`topologicalSort`: the order is topologically valid, its ids are
pairwise distinct, every listed phase is the lookup result for its id
and a member of the input, and every input phase id appears. -/
theorem topologicalSort_ok_props {phases order : List WorkflowPhase}
    (h : topologicalSort phases = .ok order) :
    TopoValid phases order ∧ (order.map (·.id)).Nodup ∧
    (∀ p ∈ order, phases.find? (fun q => q.id == p.id) = some p ∧ p ∈ phases) ∧
    (∀ p ∈ phases, p.id ∈ order.map (·.id)) := by
  unfold topologicalSort at h
  cases hs : sortLoop phases (fuelBound phases) phases ⟨[], []⟩ with
  | error e => rw [hs] at h; simp [Except.map] at h
  | ok st =>
    rw [hs] at h
    simp only [Except.map] at h
    have hres : st.result = order := by injection h
    obtain ⟨hinv, _, hks⟩ := sortLoop_ok phases ⟨[], []⟩ st sortInv_init hs
    refine ⟨hres ▸ hinv.2.2.2, ?_, ?_, ?_⟩
    · rw [← hres, ← hinv.1]
      exact hinv.2.1
    · intro p hp
      have hf := hinv.2.2.1 p (hres ▸ hp)
      exact ⟨hf, find?_id_mem hf⟩
    · intro p hp
      have hk : isKnown phases p.id = true := by
        rw [isKnown]
        exact List.find?_isSome.mpr ⟨p, hp, by simp⟩
      have := hks p hp hk
      rw [hinv.1, hres] at this
      exact this

/-- An acyclicity ranking rules out both error outcomes: the sort
succeeds. -/
theorem topologicalSort_ok_of_acyclic {phases : List WorkflowPhase}
    {rank : String → Nat} (hacy : AcyclicRank phases rank) :
    ∃ order, topologicalSort phases = .ok order := by
  cases hres : topologicalSort phases with
  | ok order => exact ⟨order, rfl⟩
  | error e =>
    exfalso
    cases e with
    | fuel => exact topologicalSort_ne_fuel hres
    | cycle c =>
      exact no_cycle_of_rank (fun a b hE hK => edge_rank_lt hacy hE hK)
        (topologicalSort_cycle_sound hres)

/-- A successful order induces an edge-decreasing ranking: the position
of each identifier in the output. -/
theorem rank_of_ok {phases order : List WorkflowPhase}
    (h : topologicalSort phases = .ok order) :
    ∀ a b, Edge phases a b → isKnown phases b = true →
      (order.map (·.id)).indexOf b < (order.map (·.id)).indexOf a := by
  obtain ⟨htopo, hnd, hfind, hall⟩ := topologicalSort_ok_props h
  intro a b hE hKb
  obtain ⟨p, hf, hdep⟩ := edge_elim hE
  have hpa : p.id = a := find?_id_eq hf
  have hamem : a ∈ order.map (·.id) := hpa ▸ hall p (find?_id_mem hf)
  have hja : (order.map (·.id)).indexOf a < (order.map (·.id)).length :=
    List.indexOf_lt_length.mpr hamem
  have hja' : (order.map (·.id)).indexOf a < order.length := by
    simpa using hja
  have hgeta : (order.map (·.id)).get ⟨(order.map (·.id)).indexOf a, hja⟩ = a :=
    List.indexOf_get hja
  have hq : (order.get ⟨(order.map (·.id)).indexOf a, hja'⟩).id = a := by
    rw [List.get_eq_getElem, List.getElem_map] at hgeta
    rw [List.get_eq_getElem]
    exact hgeta
  have hqfind := (hfind (order.get ⟨(order.map (·.id)).indexOf a, hja'⟩)
    (List.get_mem _ _ _)).1
  rw [hq] at hqfind
  have hqp : order.get ⟨(order.map (·.id)).indexOf a, hja'⟩ = p := by
    rw [hqfind] at hf
    injection hf
  obtain ⟨i, hij, hib⟩ := htopo ⟨(order.map (·.id)).indexOf a, hja'⟩ b
    (by rw [hqp]; exact hdep) hKb
  have hilt : i.val < (order.map (·.id)).length := by
    have := i.isLt
    simp only [List.length_map]
    omega
  have hib' : (order.map (·.id)).get ⟨i.val, hilt⟩ = b := by
    rw [List.get_eq_getElem, List.getElem_map]
    rw [List.get_eq_getElem] at hib
    exact hib
  have hbmem : b ∈ order.map (·.id) := by
    rw [← hib']
    exact List.get_mem _ _ _
  have hjb : (order.map (·.id)).indexOf b < (order.map (·.id)).length :=
    List.indexOf_lt_length.mpr hbmem
  have hgetb : (order.map (·.id)).get ⟨(order.map (·.id)).indexOf b, hjb⟩ = b :=
    List.indexOf_get hjb
  have hfin : (⟨(order.map (·.id)).indexOf b, hjb⟩ : Fin (order.map (·.id)).length) =
      ⟨i.val, hilt⟩ :=
    hnd.get_inj_iff.mp (by rw [hgetb, hib'])
  have hbi : (order.map (·.id)).indexOf b = i.val := congrArg Fin.val hfin
  have hija : i.val < (order.map (·.id)).indexOf a := hij
  omega

/-- Cycle detection is complete: a dependency cycle always produces the
cycle error, naming an identifier that lies on a cycle. -/
theorem topologicalSort_cycle_complete {phases : List WorkflowPhase}
    (h : HasCycle phases) :
    ∃ c, topologicalSort phases = .error (.cycle c) ∧ IsCycleThrough phases c := by
  cases hres : topologicalSort phases with
  | ok order =>
    exfalso
    obtain ⟨c, hc⟩ := h
    exact no_cycle_of_rank (rank_of_ok hres) hc
  | error e =>
    cases e with
    | fuel => exact absurd hres topologicalSort_ne_fuel
    | cycle c => exact ⟨c, rfl, topologicalSort_cycle_sound hres⟩

/-- With pairwise-distinct ids, a successful sort returns a permutation
of the input: every phase exactly once. -/
theorem topologicalSort_perm {phases order : List WorkflowPhase}
    (hnd : (phases.map (·.id)).Nodup) (h : topologicalSort phases = .ok order) :
    order.Perm phases := by
  obtain ⟨_, hndo, hfind, hall⟩ := topologicalSort_ok_props h
  have hinj : ∀ x ∈ phases, ∀ y ∈ phases, x.id = y.id → x = y :=
    List.inj_on_of_nodup_map hnd
  have hsub1 : order ⊆ phases := fun q hq => (hfind q hq).2
  have hsub2 : phases ⊆ order := by
    intro p hp
    obtain ⟨q, hqo, hqid⟩ := List.mem_map.mp (hall p hp)
    have hq := (hfind q hqo).1
    have : q = p := hinj q (hfind q hqo).2 p hp hqid
    exact this ▸ hqo
  have hndo' : order.Nodup := List.Nodup.of_map _ hndo
  have hndp : phases.Nodup := List.Nodup.of_map _ hnd
  exact (hndo'.subperm hsub1).antisymm (hndp.subperm hsub2)

-- ### Lemmas about phase execution

theorem seqRun_all_success {runTask : TaskConfig → CommandResult}
    {tasks : List TaskConfig} (h : ∀ t ∈ tasks, (runTask t).success = true) :
    seqRun runTask tasks = tasks.map (fun t => (t, runTask t)) := by
  induction tasks with
  | nil => rfl
  | cons t ts ih =>
    rw [seqRun, if_pos (h t (by simp))]
    rw [ih (fun x hx => h x (by simp [hx]))]
    rfl

theorem seqRun_split {runTask : TaskConfig → CommandResult}
    {pre post : List TaskConfig} {tk : TaskConfig}
    (hpre : ∀ t ∈ pre, (runTask t).success = true)
    (htk : (runTask tk).success = false) :
    seqRun runTask (pre ++ tk :: post) =
      pre.map (fun t => (t, runTask t)) ++ [(tk, runTask tk)] := by
  induction pre with
  | nil =>
    rw [List.nil_append, seqRun, htk]
    simp
  | cons t ts ih =>
    rw [List.cons_append, seqRun, if_pos (hpre t (by simp))]
    rw [ih (fun x hx => hpre x (by simp [hx]))]
    rfl

theorem seqRun_snd {runTask : TaskConfig → CommandResult}
    {tasks : List TaskConfig} :
    (seqRun runTask tasks).map (·.2) =
      ((seqRun runTask tasks).map (·.1)).map runTask := by
  induction tasks with
  | nil => rfl
  | cons t ts ih =>
    rw [seqRun]
    by_cases h : (runTask t).success
    · rw [if_pos h]
      simpa using ih
    · rw [if_neg h]
      simp

theorem execPhases_all_success {runTask : TaskConfig → CommandResult}
    {phs : List WorkflowPhase}
    (h : ∀ p ∈ phs, (runPhase runTask p).1.success = true) :
    execPhases runTask phs =
      (phs.map (fun p => (runPhase runTask p).1),
        (phs.map (fun p => (runPhase runTask p).2)).flatten) := by
  induction phs with
  | nil => rfl
  | cons p ps ih =>
    rw [execPhases]
    rw [show (runPhase runTask p) = ((runPhase runTask p).1, (runPhase runTask p).2)
      from rfl]
    simp only []
    rw [if_pos (h p (by simp))]
    rw [ih (fun q hq => h q (by simp [hq]))]
    simp

theorem execPhases_split {runTask : TaskConfig → CommandResult}
    {pre post : List WorkflowPhase} {pk : WorkflowPhase}
    (hpre : ∀ p ∈ pre, (runPhase runTask p).1.success = true)
    (hpk : (runPhase runTask pk).1.success = false) :
    execPhases runTask (pre ++ pk :: post) =
      (pre.map (fun p => (runPhase runTask p).1) ++ [(runPhase runTask pk).1],
        (pre.map (fun p => (runPhase runTask p).2)).flatten ++
          (runPhase runTask pk).2) := by
  induction pre with
  | nil =>
    rw [List.nil_append, execPhases]
    rw [show (runPhase runTask pk) = ((runPhase runTask pk).1, (runPhase runTask pk).2)
      from rfl]
    simp only []
    rw [if_neg (by rw [hpk]; exact Bool.false_ne_true)]
    simp
  | cons p ps ih =>
    rw [List.cons_append, execPhases]
    rw [show (runPhase runTask p) = ((runPhase runTask p).1, (runPhase runTask p).2)
      from rfl]
    simp only []
    rw [if_pos (hpre p (by simp))]
    rw [ih (fun q hq => hpre q (by simp [hq]))]
    simp

/-- Under an all-succeeding task executor every phase succeeds. -/
theorem runPhase_success_of_all {runTask : TaskConfig → CommandResult}
    (hall : ∀ t, (runTask t).success = true) (phase : WorkflowPhase) :
    (runPhase runTask phase).1.success = true := by
  unfold runPhase
  by_cases hp : phase.parallel
  · rw [if_pos hp]
    simp [batch, List.all_eq_true]
    intro r _
    exact hall r
  · rw [if_neg hp]
    simp only []
    rw [seqRun_all_success (fun t _ => hall t)]
    simp [List.all_eq_true]
    intro r _
    exact hall r

-- ### Concrete fixtures used by the claim witnesses

/-- A minimal well-formed task. -/
def taskFixture (i : String) : TaskConfig :=
  { id := i, description := "task " ++ i, agent := "coder" }

/-- Task executor oracle that succeeds on every task. -/
def allOk : TaskConfig → CommandResult := fun _ => { success := true }

/-- Task executor oracle that fails exactly the task with id `bad`. -/
def failOn (bad : String) : TaskConfig → CommandResult :=
  fun t => { success := !(t.id == bad) }

def c1PhaseA : WorkflowPhase :=
  { id := "a", name := "A", dependencies := [], tasks := [taskFixture "ta"],
    parallel := false }

def c1PhaseB : WorkflowPhase :=
  { id := "b", name := "B", dependencies := ["a"], tasks := [taskFixture "tb"],
    parallel := false }

def c1Phases : List WorkflowPhase := [c1PhaseA, c1PhaseB]

def c1Rank : String → Nat := fun i => if i = "b" then 1 else 0

def cyclePhaseX : WorkflowPhase :=
  { id := "x", name := "X", dependencies := ["y"], tasks := [taskFixture "tx"],
    parallel := false }

def cyclePhaseY : WorkflowPhase :=
  { id := "y", name := "Y", dependencies := ["x"], tasks := [taskFixture "ty"],
    parallel := false }

def cyclePipe : Pipeline :=
  { id := "cyc", name := "Cyclic", description := "two phases in a cycle",
    phases := [cyclePhaseX, cyclePhaseY] }

-- ### The claims

/-- C1.  For every set of phases with pairwise-distinct ids whose
dependency graph is acyclic and in which every dependency identifier
names a phase of the set, `topologicalSort` (as used by `execute()`)
succeeds, its output contains every phase, and it places each phase
strictly after every phase named in its dependencies. -/
theorem C1_topological_validity (phases : List WorkflowPhase)
    (rank : String → Nat) (hnd : (phases.map (·.id)).Nodup)
    (hfull : ∀ p ∈ phases, ∀ d ∈ p.dependencies, isKnown phases d = true)
    (hacy : AcyclicRank phases rank) :
    ∃ order, topologicalSort phases = .ok order ∧
      (∀ p ∈ phases, p ∈ order) ∧
      ∀ j : Fin order.length, ∀ d ∈ (order.get j).dependencies,
        ∃ i : Fin order.length, i.val < j.val ∧ (order.get i).id = d := by
  obtain ⟨order, hord⟩ := topologicalSort_ok_of_acyclic hacy
  obtain ⟨htopo, _, hfind, _⟩ := topologicalSort_ok_props hord
  refine ⟨order, hord, ?_, ?_⟩
  · intro p hp
    exact (topologicalSort_perm hnd hord).mem_iff.mpr hp
  · intro j d hd
    have hmem : order.get j ∈ phases := (hfind (order.get j) (List.get_mem _ _ _)).2
    exact htopo j d hd (hfull (order.get j) hmem d hd)

theorem C1_witness :
    (c1Phases.map (·.id)).Nodup ∧
    (∀ p ∈ c1Phases, ∀ d ∈ p.dependencies, isKnown c1Phases d = true) ∧
    AcyclicRank c1Phases c1Rank ∧
    (∃ order, topologicalSort c1Phases = .ok order ∧
      (∀ p ∈ c1Phases, p ∈ order) ∧
      ∀ j : Fin order.length, ∀ d ∈ (order.get j).dependencies,
        ∃ i : Fin order.length, i.val < j.val ∧ (order.get i).id = d) :=
  ⟨by decide, by decide, by decide,
    C1_topological_validity c1Phases c1Rank (by decide) (by decide) (by decide)⟩

/-- C2.  For every pipeline whose dependency graph contains a cycle,
resolution raises the cycle error naming an identifier that lies on a
cycle, and `execute()` dispatches no task to the task executor (the
dispatch log is empty and the run fails with the cycle error). -/
theorem C2_cycle_detection (runTask : TaskConfig → CommandResult)
    (pipeline : Pipeline) (h : HasCycle pipeline.phases) :
    ∃ c, topologicalSort pipeline.phases = .error (.cycle c) ∧
      IsCycleThrough pipeline.phases c ∧
      execute runTask pipeline = (.error (.cycle c), []) := by
  obtain ⟨c, herr, hcyc⟩ := topologicalSort_cycle_complete h
  refine ⟨c, herr, hcyc, ?_⟩
  unfold execute
  rw [herr]

theorem cyclePipe_hasCycle : HasCycle cyclePipe.phases :=
  ⟨"x", ["y"], List.chain'_cons.mpr ⟨by decide,
    List.chain'_cons.mpr ⟨by decide, List.chain'_singleton _⟩⟩⟩

theorem C2_witness :
    HasCycle cyclePipe.phases ∧
    (∃ c, topologicalSort cyclePipe.phases = .error (.cycle c) ∧
      IsCycleThrough cyclePipe.phases c ∧
      execute allOk cyclePipe = (.error (.cycle c), [])) :=
  ⟨cyclePipe_hasCycle, C2_cycle_detection allOk cyclePipe cyclePipe_hasCycle⟩

def c3Phase1 : WorkflowPhase :=
  { id := "p1", name := "P1", dependencies := [], tasks := [taskFixture "t1"],
    parallel := false }

def c3Phase2 : WorkflowPhase :=
  { id := "p2", name := "P2", dependencies := ["p1"], tasks := [taskFixture "t2"],
    parallel := false }

def c3Phase3 : WorkflowPhase :=
  { id := "p3", name := "P3", dependencies := ["p2"], tasks := [taskFixture "t3"],
    parallel := false }

def c3Pipe : Pipeline :=
  { id := "c3", name := "C3", description := "three chained phases",
    phases := [c3Phase1, c3Phase2, c3Phase3] }

/-- C3.  Within one `execute()` run, as soon as a phase produces an
unsuccessful result no later phase of the resolved order is attempted:
the result holds `PhaseResult`s exactly for the attempted phases, the
overall success flag is false, and the dispatch log holds only tasks of
the attempted phases. -/
theorem C3_pipeline_short_circuit (runTask : TaskConfig → CommandResult)
    (pipeline : Pipeline) (pre post : List WorkflowPhase) (pk : WorkflowPhase)
    (hsort : topologicalSort pipeline.phases = .ok (pre ++ pk :: post))
    (hpre : ∀ p ∈ pre, (runPhase runTask p).1.success = true)
    (hfail : (runPhase runTask pk).1.success = false) :
    ∃ r log, execute runTask pipeline = (.ok r, log) ∧
      r.phases = pre.map (fun p => (runPhase runTask p).1) ++
        [(runPhase runTask pk).1] ∧
      r.success = false ∧
      log = (pre.map (fun p => (runPhase runTask p).2)).flatten ++
        (runPhase runTask pk).2 := by
  unfold execute
  rw [hsort]
  simp only []
  rw [execPhases_split hpre hfail]
  refine ⟨_, _, rfl, rfl, ?_, rfl⟩
  simp only []
  apply List.all_eq_false.mpr
  refine ⟨(runPhase runTask pk).1, by simp, by simp [hfail]⟩

theorem C3_witness :
    topologicalSort c3Pipe.phases = .ok ([c3Phase1] ++ c3Phase2 :: [c3Phase3]) ∧
    (∀ p ∈ [c3Phase1], (runPhase (failOn "t2") p).1.success = true) ∧
    (runPhase (failOn "t2") c3Phase2).1.success = false ∧
    (∃ r log, execute (failOn "t2") c3Pipe = (.ok r, log) ∧
      r.phases = [c3Phase1].map (fun p => (runPhase (failOn "t2") p).1) ++
        [(runPhase (failOn "t2") c3Phase2).1] ∧
      r.success = false ∧
      log = ([c3Phase1].map (fun p => (runPhase (failOn "t2") p).2)).flatten ++
        (runPhase (failOn "t2") c3Phase2).2) :=
  ⟨by decide, by decide, by decide,
    C3_pipeline_short_circuit (failOn "t2") c3Pipe [c3Phase1] [c3Phase3] c3Phase2
      (by decide) (by decide) (by decide)⟩

def c4Phase : WorkflowPhase :=
  { id := "seq", name := "Sequential",
    dependencies := [],
    tasks := [taskFixture "t1", taskFixture "t2", taskFixture "t3"],
    parallel := false }

/-- C4.  For a `parallel=false` phase, `execute()`s phase runner
dispatches tasks in declared order and stops at the first failing task:
its success flag is true iff no dispatched task failed, and with tasks
`pre ++ [tk] ++ post` where `pre` succeed and `tk` fails, exactly
`pre ++ [tk]` are dispatched and the result counts `pre.length`
successes and one failure (tasks after `tk` are never invoked). -/
theorem C4_sequential_short_circuit (runTask : TaskConfig → CommandResult)
    (phase : WorkflowPhase) (hpar : phase.parallel = false) :
    ((runPhase runTask phase).1.success = true ↔
      ∀ r ∈ ((runPhase runTask phase).2.map runTask), r.success = true) ∧
    ∀ preT postT tk, phase.tasks = preT ++ tk :: postT →
      (∀ t ∈ preT, (runTask t).success = true) →
      (runTask tk).success = false →
      (runPhase runTask phase).2 = preT ++ [tk] ∧
      (runPhase runTask phase).1.success = false ∧
      (runPhase runTask phase).1.results.totalTasks = preT.length + 1 ∧
      (runPhase runTask phase).1.results.successfulTasks = preT.length ∧
      (runPhase runTask phase).1.results.failedTasks = 1 := by
  have hcond : ¬(phase.parallel = true) := by rw [hpar]; exact Bool.false_ne_true
  constructor
  · unfold runPhase
    rw [if_neg hcond]
    simp only []
    rw [seqRun_snd]
    simp [List.all_eq_true]
  · intro preT postT tk hsplit hpreT htk
    have hrun : seqRun runTask phase.tasks =
        preT.map (fun t => (t, runTask t)) ++ [(tk, runTask tk)] := by
      rw [hsplit]
      exact seqRun_split hpreT htk
    have hfst : (seqRun runTask phase.tasks).map (·.1) = preT ++ [tk] := by
      rw [hrun]
      simp [Function.comp_def]
    have hsnd : (seqRun runTask phase.tasks).map (·.2) =
        preT.map runTask ++ [runTask tk] := by
      rw [hrun]
      simp
    have hfiltT : (preT.map runTask).filter (fun r => r.success) = preT.map runTask :=
      List.filter_eq_self.mpr (by
        intro r hr
        obtain ⟨t, ht, hrt⟩ := List.mem_map.mp hr
        rw [← hrt]
        simp [hpreT t ht])
    have hfiltF : (preT.map runTask).filter (fun r => !r.success) = [] :=
      List.filter_eq_nil_iff.mpr (by
        intro r hr
        obtain ⟨t, ht, hrt⟩ := List.mem_map.mp hr
        rw [← hrt]
        simp [hpreT t ht])
    unfold runPhase
    rw [if_neg hcond]
    simp only []
    refine ⟨hfst, ?_, ?_, ?_, ?_⟩
    · rw [hsnd]
      simp [htk]
    · show ((seqRun runTask phase.tasks).map (·.2)).length = preT.length + 1
      rw [hsnd]
      simp
    · show (((seqRun runTask phase.tasks).map (·.2)).filter (fun r => r.success)).length =
        preT.length
      rw [hsnd, List.filter_append, hfiltT]
      simp [htk]
    · show (((seqRun runTask phase.tasks).map (·.2)).filter (fun r => !r.success)).length = 1
      rw [hsnd, List.filter_append, hfiltF]
      simp [htk]

theorem C4_witness :
    c4Phase.parallel = false ∧
    c4Phase.tasks = [taskFixture "t1"] ++ taskFixture "t2" :: [taskFixture "t3"] ∧
    (((runPhase (failOn "t2") c4Phase).1.success = true ↔
      ∀ r ∈ ((runPhase (failOn "t2") c4Phase).2.map (failOn "t2")),
        r.success = true) ∧
    ∀ preT postT tk, c4Phase.tasks = preT ++ tk :: postT →
      (∀ t ∈ preT, (failOn "t2" t).success = true) →
      (failOn "t2" tk).success = false →
      (runPhase (failOn "t2") c4Phase).2 = preT ++ [tk] ∧
      (runPhase (failOn "t2") c4Phase).1.success = false ∧
      (runPhase (failOn "t2") c4Phase).1.results.totalTasks = preT.length + 1 ∧
      (runPhase (failOn "t2") c4Phase).1.results.successfulTasks = preT.length ∧
      (runPhase (failOn "t2") c4Phase).1.results.failedTasks = 1) :=
  ⟨by decide, by decide,
    C4_sequential_short_circuit (failOn "t2") c4Phase (by decide)⟩

def c5Phase : WorkflowPhase :=
  { id := "par", name := "Parallel",
    dependencies := [],
    tasks := [taskFixture "t1", taskFixture "t2", taskFixture "t3"],
    parallel := true }

/-- C5.  For a `parallel=true` phase, the phase runner dispatches every
declared task (a failure skips no sibling), and its `PhaseResult` is
successful iff every task succeeded, counts all tasks, and counts as
failed exactly the tasks whose results are unsuccessful. -/
theorem C5_parallel_completeness (runTask : TaskConfig → CommandResult)
    (phase : WorkflowPhase) (hpar : phase.parallel = true) :
    (runPhase runTask phase).2 = phase.tasks ∧
    ((runPhase runTask phase).1.success = true ↔
      ∀ t ∈ phase.tasks, (runTask t).success = true) ∧
    (runPhase runTask phase).1.results.totalTasks = phase.tasks.length ∧
    (runPhase runTask phase).1.results.failedTasks =
      (phase.tasks.filter (fun t => !(runTask t).success)).length := by
  unfold runPhase
  rw [if_pos hpar]
  refine ⟨rfl, ?_, rfl, ?_⟩
  · show (batch runTask phase.tasks).success = true ↔ _
    unfold batch
    simp [List.all_eq_true]
  · show ((phase.tasks.map runTask).filter (fun r => !r.success)).length = _
    rw [List.filter_map]
    simp [Function.comp_def]

theorem C5_witness :
    c5Phase.parallel = true ∧
    ((runPhase (failOn "t2") c5Phase).2 = c5Phase.tasks ∧
    ((runPhase (failOn "t2") c5Phase).1.success = true ↔
      ∀ t ∈ c5Phase.tasks, (failOn "t2" t).success = true) ∧
    (runPhase (failOn "t2") c5Phase).1.results.totalTasks = c5Phase.tasks.length ∧
    (runPhase (failOn "t2") c5Phase).1.results.failedTasks =
      (c5Phase.tasks.filter (fun t => !(failOn "t2" t).success)).length) :=
  ⟨by decide, C5_parallel_completeness (failOn "t2") c5Phase (by decide)⟩

-- ### Validation helpers for C6

theorem isKnown_true_iff {phases : List WorkflowPhase} {d : String} :
    isKnown phases d = true ↔ d ∈ phases.map (·.id) := by
  unfold isKnown
  rw [List.find?_isSome]
  constructor
  · rintro ⟨p, hp, hpd⟩
    exact List.mem_map.mpr ⟨p, hp, eq_of_beq hpd⟩
  · intro hm
    obtain ⟨p, hp, hpd⟩ := List.mem_map.mp hm
    exact ⟨p, hp, by simp [hpd]⟩

theorem isKnown_false_iff {phases : List WorkflowPhase} {d : String} :
    isKnown phases d = false ↔ d ∉ phases.map (·.id) := by
  constructor
  · intro h hm
    rw [isKnown_true_iff.mpr hm] at h
    cases h
  · intro h
    cases hk : isKnown phases d with
    | false => rfl
    | true => exact absurd (isKnown_true_iff.mp hk) h

theorem unknownDepMsg_ne_circular (pid d : String) :
    unknownDepMsg pid d ≠ circularDepsMsg := by
  intro h
  have h1 : (unknownDepMsg pid d).data.head? = some 'P' := rfl
  have h2 : circularDepsMsg.data.head? = some 'W' := rfl
  rw [h] at h1
  rw [h1] at h2
  simp at h2

theorem unknownDepMsg_ne_cycleThrow (pid d c : String) :
    unknownDepMsg pid d ≠ cycleThrowMsg c := by
  intro h
  have h1 : (unknownDepMsg pid d).data.head? = some 'P' := rfl
  have h2 : (cycleThrowMsg c).data.head? = some 'C' := rfl
  rw [h] at h1
  rw [h1] at h2
  simp at h2

theorem validate_unknown_dep_mem {pipeline : Pipeline} {p : WorkflowPhase}
    {d : String} (hp : p ∈ pipeline.phases) (hd : d ∈ p.dependencies)
    (hk : isKnown pipeline.phases d = false) :
    unknownDepMsg p.id d ∈ (validate pipeline).errors := by
  have hcont : (pipeline.phases.map (·.id)).contains d = false :=
    contains_false_iff.mpr (isKnown_false_iff.mp hk)
  show unknownDepMsg p.id d ∈
    ((pipeline.phases.map (fun q =>
      (q.dependencies.filter
        (fun x => !(pipeline.phases.map (·.id)).contains x)).map
        (fun x => unknownDepMsg q.id x))).flatten ++ _ ++ _)
  apply List.mem_append.mpr
  apply Or.inl
  apply List.mem_append.mpr
  apply Or.inl
  apply List.mem_flatten.mpr
  refine ⟨(p.dependencies.filter
    (fun x => !(pipeline.phases.map (·.id)).contains x)).map
      (fun x => unknownDepMsg p.id x), ?_, ?_⟩
  · exact List.mem_map.mpr ⟨p, hp, rfl⟩
  · refine List.mem_map.mpr ⟨d, ?_, rfl⟩
    rw [List.mem_filter]
    exact ⟨hd, by rw [hcont]; rfl⟩

def zPhase : WorkflowPhase :=
  { id := "z", name := "Z", dependencies := ["ghost"],
    tasks := [taskFixture "tz"], parallel := false }

def zPipe : Pipeline :=
  { id := "zp", name := "ZP", description := "unknown dependency",
    phases := [zPhase] }

/-- C6 counterexample.  A pipeline whose only phase depends on the
unknown identifier `ghost`: `validate()` flags the error, yet
`execute()` completes without error — it even dispatches the task of
that phase — so the condition is not fatal to the `execute()` run,
contradicting the claim. -/
theorem C6_counterexample :
    (∃ p ∈ zPipe.phases, ∃ d ∈ p.dependencies,
      isKnown zPipe.phases d = false) ∧
    (validate zPipe).isValid = false ∧
    (validate zPipe).errors = [unknownDepMsg "z" "ghost"] ∧
    (execute allOk zPipe).1.isOk = true ∧
    (execute allOk zPipe).2 = [taskFixture "tz"] := by
  refine ⟨⟨zPhase, by decide, "ghost", by decide, by decide⟩, ?_, ?_, ?_, ?_⟩ <;>
    decide

/-- C6 (amended).  A dependency identifier naming no phase of the
pipeline is reported by `validate()` as a validation error distinct
from the cycle errors, and `isValid` is false; but the condition is not
detected by `execute()`: resolution silently skips unknown identifiers,
and when the known-identifier graph is acyclic the run proceeds without
error for every task executor. -/
theorem C6_unknown_dep_validation (pipeline : Pipeline) (p : WorkflowPhase)
    (d : String) (hp : p ∈ pipeline.phases) (hd : d ∈ p.dependencies)
    (hk : isKnown pipeline.phases d = false) :
    (validate pipeline).isValid = false ∧
    unknownDepMsg p.id d ∈ (validate pipeline).errors ∧
    unknownDepMsg p.id d ≠ circularDepsMsg ∧
    (∀ c, unknownDepMsg p.id d ≠ cycleThrowMsg c) ∧
    (∀ rank, AcyclicRank pipeline.phases rank →
      ∀ runTask, (execute runTask pipeline).1.isOk = true) := by
  have hmem := validate_unknown_dep_mem hp hd hk
  refine ⟨?_, hmem, unknownDepMsg_ne_circular p.id d,
    fun c => unknownDepMsg_ne_cycleThrow p.id d c, ?_⟩
  · show (validate pipeline).errors.isEmpty = false
    cases he : (validate pipeline).errors.isEmpty with
    | false => rfl
    | true =>
      rw [List.isEmpty_iff] at he
      rw [he] at hmem
      cases hmem
  · intro rank hacy runTask
    obtain ⟨order, hord⟩ := topologicalSort_ok_of_acyclic hacy
    unfold execute
    rw [hord]
    simp only []
    cases execPhases runTask order
    rfl

theorem C6_witness :
    zPhase ∈ zPipe.phases ∧ "ghost" ∈ zPhase.dependencies ∧
    isKnown zPipe.phases "ghost" = false ∧
    ((validate zPipe).isValid = false ∧
    unknownDepMsg zPhase.id "ghost" ∈ (validate zPipe).errors ∧
    unknownDepMsg zPhase.id "ghost" ≠ circularDepsMsg ∧
    (∀ c, unknownDepMsg zPhase.id "ghost" ≠ cycleThrowMsg c) ∧
    (∀ rank, AcyclicRank zPipe.phases rank →
      ∀ runTask, (execute runTask zPipe).1.isOk = true)) :=
  ⟨by decide, by decide, by decide,
    C6_unknown_dep_validation zPipe zPhase "ghost" (by decide) (by decide)
      (by decide)⟩

theorem mkMetrics_quality_pos {prs : List PhaseResult}
    (h0 : (mkMetrics prs).totalTasks ≠ 0) :
    (mkMetrics prs).qualityScore =
      some (((mkMetrics prs).successfulTasks : ℚ) /
        ((mkMetrics prs).totalTasks : ℚ)) := by
  simp only [mkMetrics] at h0 ⊢
  rw [if_neg h0]

theorem mkMetrics_quality_zero {prs : List PhaseResult}
    (h0 : (mkMetrics prs).totalTasks = 0) :
    (mkMetrics prs).qualityScore = none := by
  simp only [mkMetrics] at h0 ⊢
  rw [if_pos h0]

def emptyPipe : Pipeline :=
  { id := "empty", name := "Empty", description := "no phases", phases := [] }

/-- C7 counterexample.  An `execute()` run with zero tasks completes,
its `totalTasks` is 0, but its quality score is the zero-denominator
division (JavaScript `NaN`, modelled `none`), not 0 — contradicting
the `qualityScore == 0` clause of the claim. -/
theorem C7_counterexample :
    (execute allOk emptyPipe).1.map (fun r => r.metrics.totalTasks) = .ok 0 ∧
    (execute allOk emptyPipe).1.map (fun r => r.metrics.qualityScore) = .ok none ∧
    (execute allOk emptyPipe).1.map (fun r => r.metrics.qualityScore) ≠
      .ok (some 0) := by
  refine ⟨by decide, by decide, by decide⟩

/-- C7 (amended).  For every completed `execute()` run the metrics
satisfy `failedTasks = totalTasks - successfulTasks` (as the integer
subtraction the code performs) and
`qualityScore = successfulTasks / totalTasks` when `totalTasks > 0`;
when `totalTasks = 0` the quality score is the zero-denominator
division (JavaScript `NaN`, modelled `none`), not 0. -/
theorem C7_metrics_arithmetic (runTask : TaskConfig → CommandResult)
    (pipeline : Pipeline) (r : WorkflowResult) (log : List TaskConfig)
    (h : execute runTask pipeline = (.ok r, log)) :
    r.metrics.failedTasks =
      (r.metrics.totalTasks : Int) - (r.metrics.successfulTasks : Int) ∧
    (r.metrics.totalTasks ≠ 0 →
      r.metrics.qualityScore =
        some ((r.metrics.successfulTasks : ℚ) / (r.metrics.totalTasks : ℚ))) ∧
    (r.metrics.totalTasks = 0 → r.metrics.qualityScore = none) := by
  unfold execute at h
  cases hs : topologicalSort pipeline.phases with
  | error e => rw [hs] at h; simp at h
  | ok sorted =>
    rw [hs] at h
    simp only [] at h
    cases hep : execPhases runTask sorted with
    | mk prs disp =>
      rw [hep] at h
      have h1 := congrArg Prod.fst h
      simp only [] at h1
      injection h1 with h2
      rw [← h2]
      exact ⟨rfl, fun h0 => mkMetrics_quality_pos h0,
        fun h0 => mkMetrics_quality_zero h0⟩

def c7Metrics : WorkflowMetrics :=
  { totalTasks := 0, successfulTasks := 0, failedTasks := 0,
    averageTaskDuration := none, resourceUtilization := 8 / 10,
    qualityScore := none }

def c7Result : WorkflowResult :=
  { success := true, duration := 0, phases := [], artifacts := [],
    metrics := c7Metrics }

theorem C7_witness :
    execute allOk emptyPipe = (.ok c7Result, []) ∧
    (c7Result.metrics.failedTasks =
      (c7Result.metrics.totalTasks : Int) -
        (c7Result.metrics.successfulTasks : Int) ∧
    (c7Result.metrics.totalTasks ≠ 0 →
      c7Result.metrics.qualityScore =
        some ((c7Result.metrics.successfulTasks : ℚ) /
          (c7Result.metrics.totalTasks : ℚ))) ∧
    (c7Result.metrics.totalTasks = 0 →
      c7Result.metrics.qualityScore = none)) :=
  ⟨rfl, C7_metrics_arithmetic allOk emptyPipe c7Result [] rfl⟩

/-- C8.  `monitor()` returns the degraded result — status `failed`,
progress 0, current phase `unknown`, eta 0, empty metrics — whenever
the state-store read reports no success or carries no data (no
checkpoints yet, or the read failed), instead of raising an error; the
embedding of `monitor` is a total function, so no other outcome can
escape it. -/
theorem C8_monitor_degraded (pipeline : Pipeline) (ws : RetrieveResult)
    (h : ws.success = false ∨ ws.data = none) :
    monitor pipeline ws =
      { status := "failed", progress := some 0, currentPhase := "unknown",
        eta := 0,
        metrics := { totalTasks := none, successfulTasks := none } } := by
  obtain ⟨s, dat⟩ := ws
  cases s with
  | false => cases dat <;> rfl
  | true =>
    cases dat with
    | none => rfl
    | some states =>
      rcases h with h | h <;> simp at h

theorem C8_witness :
    (({ success := false, data := none } : RetrieveResult).success = false ∨
      ({ success := false, data := none } : RetrieveResult).data = none) ∧
    monitor zPipe { success := false, data := none } =
      { status := "failed", progress := some 0, currentPhase := "unknown",
        eta := 0,
        metrics := { totalTasks := none, successfulTasks := none } } :=
  ⟨Or.inl rfl, C8_monitor_degraded zPipe { success := false, data := none }
    (Or.inl rfl)⟩

-- ### Reachability in the dependency graph (for claim C9)

/-- Nonempty dependency path along `Edge`s. -/
inductive Reaches (phases : List WorkflowPhase) : String → String → Prop where
  | single {a b : String} : Edge phases a b → Reaches phases a b
  | head {a b c : String} : Edge phases a b → Reaches phases b c →
      Reaches phases a c

/-- Two identifiers are independent: neither depends on the other,
directly or transitively. -/
def Independent (phases : List WorkflowPhase) (a b : String) : Prop :=
  ¬ Reaches phases a b ∧ ¬ Reaches phases b a

def c9PhaseA : WorkflowPhase :=
  { id := "a", name := "A9", dependencies := ["c"],
    tasks := [taskFixture "ta"], parallel := false }

def c9PhaseB : WorkflowPhase :=
  { id := "b", name := "B9", dependencies := [],
    tasks := [taskFixture "tb"], parallel := false }

def c9PhaseC : WorkflowPhase :=
  { id := "c", name := "C9", dependencies := [],
    tasks := [taskFixture "tc"], parallel := false }

def c9Phases : List WorkflowPhase := [c9PhaseA, c9PhaseB, c9PhaseC]

/-- C9 counterexample.  In the input, the independent phases `b` and
`c` appear in the order b, c; the resolver outputs c before b (the
depth-first walk pulls `c` forward as a dependency of `a`), so it does
reorder independent phases relative to their input positions. -/
theorem C9_counterexample :
    c9Phases.map (·.id) = ["a", "b", "c"] ∧
    (topologicalSort c9Phases).map (fun l => l.map (·.id)) =
      .ok ["c", "a", "b"] ∧
    Independent c9Phases "b" "c" := by
  refine ⟨by decide, by decide, ?_, ?_⟩
  · intro h
    cases h with
    | single he => exact absurd he (by decide)
    | head he _ => exact Bool.false_ne_true he
  · intro h
    cases h with
    | single he => exact absurd he (by decide)
    | head he _ => exact Bool.false_ne_true he

/-- C9 (amended).  The resolver is deterministic — it is a pure
function of the phase list, so resolving the same unchanged valid set
twice yields the same order, and on a valid set it succeeds — but it
does not keep independent phases in their input order (see the
counterexample). -/
theorem C9_deterministic_resolver (phases : List WorkflowPhase)
    (rank : String → Nat) (hnd : (phases.map (·.id)).Nodup)
    (hacy : AcyclicRank phases rank) :
    topologicalSort phases = topologicalSort phases ∧
    ∃ order, topologicalSort phases = .ok order ∧ order.Perm phases := by
  obtain ⟨order, hord⟩ := topologicalSort_ok_of_acyclic hacy
  exact ⟨rfl, order, hord, topologicalSort_perm hnd hord⟩

theorem C9_witness :
    (c1Phases.map (·.id)).Nodup ∧ AcyclicRank c1Phases c1Rank ∧
    (topologicalSort c1Phases = topologicalSort c1Phases ∧
    ∃ order, topologicalSort c1Phases = .ok order ∧ order.Perm c1Phases) :=
  ⟨by decide, by decide,
    C9_deterministic_resolver c1Phases c1Rank (by decide) (by decide)⟩

theorem runPhase_phaseId (runTask : TaskConfig → CommandResult)
    (phase : WorkflowPhase) : (runPhase runTask phase).1.phaseId = phase.id := by
  unfold runPhase
  split <;> rfl

/-- C10.  For phases with pairwise-distinct ids whose dependency
relation restricted to present identifiers is acyclic,
`topologicalSort` returns every input phase exactly once (a permutation
of the input); dependency identifiers naming no phase are silently
skipped — no error and no omission — and `execute()` proceeds to run
every phase (one `PhaseResult` per phase of the resolved order under an
all-succeeding executor). -/
theorem C10_unknown_deps_skipped (pipeline : Pipeline) (rank : String → Nat)
    (hnd : (pipeline.phases.map (·.id)).Nodup)
    (hacy : AcyclicRank pipeline.phases rank) :
    ∃ order, topologicalSort pipeline.phases = .ok order ∧
      order.Perm pipeline.phases ∧
      ∀ runTask, (∀ t, (runTask t).success = true) →
        ∃ r log, execute runTask pipeline = (.ok r, log) ∧
          r.phases.map (·.phaseId) = order.map (·.id) := by
  obtain ⟨order, hord⟩ := topologicalSort_ok_of_acyclic hacy
  refine ⟨order, hord, topologicalSort_perm hnd hord, ?_⟩
  intro runTask hall
  unfold execute
  rw [hord]
  simp only []
  rw [execPhases_all_success (fun p _ => runPhase_success_of_all hall p)]
  refine ⟨_, _, rfl, ?_⟩
  rw [List.map_map]
  exact List.map_congr_left (fun p _ => runPhase_phaseId runTask p)

theorem C10_witness :
    (zPipe.phases.map (·.id)).Nodup ∧
    AcyclicRank zPipe.phases (fun _ => 0) ∧
    (∃ order, topologicalSort zPipe.phases = .ok order ∧
      order.Perm zPipe.phases ∧
      ∀ runTask, (∀ t, (runTask t).success = true) →
        ∃ r log, execute runTask zPipe = (.ok r, log) ∧
          r.phases.map (·.phaseId) = order.map (·.id)) :=
  ⟨by decide, by decide,
    C10_unknown_deps_skipped zPipe (fun _ => 0) (by decide) (by decide)⟩

